import Mathlib

/-!
Verification of the audio preprocessor (src/c_src/audio_preprocessor.c).

The development shallowly embeds the program:

* ASCII byte strings are `List Nat` (C strings are byte arrays); `ascii`
  converts a Lean string literal to its code list for concrete examples.
* `is_audio_file`, `walkerAccepts` embed the extension filter and the
  hidden-file skip of `collect_files_recursive`.
* `build_output_path` embeds the output-path derivation (the `strrchr`
  tricks included); `spec_output_path` is the specification's wording,
  used for the refinement comparison.
* The per-file normalization pipeline (`process_file`) is embedded as a
  functional state machine over rational-valued sample streams.  The
  external media codec service (FFmpeg) is abstracted at its interface:
  a decoded frame carries the sample batch the resampler yields for it
  (`DecFrame.contrib`), the resampler is the FIFO of those batches (the
  `pending` field, matching swr buffering: a `swr_convert` call returns
  at most the requested count and keeps the rest), and the flush tail is
  the filter-history drain.  All loops are fuel-structured so that the
  kernel can evaluate them on concrete inputs.
* The worker pool is embedded by linearizing the mutex-guarded claim
  events (`claimStep`, `runPool`), and the thread-count computation of
  `main` by `effective_threads` / `spawned_count`.

Machine floats of the C source (`min_duration_sec`, `max_duration_sec`)
are modelled as rationals; the truncating `(size_t)` cast is `Nat.floor`.
-/

set_option linter.unusedVariables false

/-! ## ASCII strings and the extension filter (`is_audio_file`, lines 34-45) -/

def toLower (c : Nat) : Nat := if 65 ≤ c ∧ c ≤ 90 then c + 32 else c

def ascii (s : String) : List Nat := s.data.map Char.toNat

def audio_extensions : List (List Nat) :=
  [ascii ".mp3", ascii ".wav", ascii ".flac", ascii ".m4a",
   ascii ".ogg", ascii ".aac", ascii ".wma", ascii ".opus"]

def suffixCaseEq (name ext : List Nat) : Bool :=
  decide ((name.drop (name.length - ext.length)).map toLower = ext.map toLower)

def is_audio_file (name : List Nat) : Bool :=
  audio_extensions.any fun ext => decide (ext.length < name.length) && suffixCaseEq name ext

def leadingDot (name : List Nat) : Bool :=
  match name with
  | 46 :: _ => true
  | _ => false

def walkerAccepts (isRegular : Bool) (name : List Nat) : Bool :=
  !leadingDot name && isRegular && is_audio_file name

def specAccepts (isRegular : Bool) (name : List Nat) : Bool :=
  isRegular && !leadingDot name &&
    (audio_extensions.any fun ext => decide (ext.length ≤ name.length) && suffixCaseEq name ext)

/-! ## Output path derivation (`collect_files_recursive`, lines 396-415) -/

def lastIdx (c : Nat) : List Nat → Option Nat
  | [] => none
  | x :: xs =>
    match lastIdx c xs with
    | some i => some (i + 1)
    | none => if x = c then some 0 else none

def stemOf (name : List Nat) : List Nat :=
  match lastIdx 46 name with
  | some i => name.take i
  | none => name

def build_output_path (outputDir relPath name : List Nat) : List Nat :=
  if relPath = [] then outputDir ++ 47 :: (stemOf name ++ ascii ".wav")
  else
    match lastIdx 47 (relPath ++ 47 :: name) with
    | some i => outputDir ++ 47 :: ((relPath ++ 47 :: name).take i ++ 47 :: (stemOf name ++ ascii ".wav"))
    | none => outputDir ++ 47 :: (stemOf name ++ ascii ".wav")

def spec_output_path (outputDir relPath name : List Nat) : List Nat :=
  outputDir ++ 47 :: ((if relPath = [] then [] else relPath ++ [47]) ++ stemOf name ++ ascii ".wav")

/-! ## The normalization pipeline (`process_file`, lines 47-340) -/

structure ProcessorConfig where
  target_sample_rate : Nat
  min_duration_sec : Rat
  max_duration_sec : Rat
deriving DecidableEq

def durationToSamples (d : Rat) (rate : Nat) : Nat := ⌊d * rate⌋₊

structure PipeEnv where
  rate : Nat
  inRate : Nat
  channels : Nat
  minS : Nat
  maxS : Nat
deriving DecidableEq

def mkEnv (cfg : ProcessorConfig) (inRate channels : Nat) : PipeEnv :=
  { rate := cfg.target_sample_rate, inRate := inRate, channels := channels,
    minS := durationToSamples cfg.min_duration_sec cfg.target_sample_rate,
    maxS := durationToSamples cfg.max_duration_sec cfg.target_sample_rate }

structure EncFrame where
  pts : Nat
  samples : List Rat
deriving DecidableEq

structure DecFrame where
  nb : Nat
  contrib : List Rat
deriving DecidableEq

inductive Packet where
  | other : Packet
  | bad : Packet
  | good : List DecFrame → Packet
deriving DecidableEq

structure RunState where
  pending : List Rat
  frames : List EncFrame
  total : Nat
  pts : Nat
  writes : List Nat
deriving DecidableEq

def initState : RunState := ⟨[], [], 0, 0, []⟩

def catFrames : List EncFrame → List Rat
  | [] => []
  | f :: fs => f.samples ++ catFrames fs

def flatOut (st : RunState) : List Rat := catFrames st.frames

def outputSampleCount (st : RunState) : Nat := (flatOut st).length

def catLists : List (List Rat) → List Rat
  | [] => []
  | l :: ls => l ++ catLists ls

def chainedFrom (p : Nat) : List EncFrame → Prop
  | [] => True
  | f :: fs => f.pts = p ∧ chainedFrom (p + f.samples.length) fs

def ceilRescale (nb rate inRate : Nat) : Nat := (nb * rate + inRate - 1) / inRate

def chunkEncodeAux : Nat → List Rat → RunState → RunState
  | 0, _, st => st
  | fuel + 1, buf, st =>
    if buf = [] then st
    else
      chunkEncodeAux fuel (buf.drop 1024)
        { st with frames := st.frames ++ [⟨st.pts, buf.take 1024⟩],
                  pts := st.pts + (buf.take 1024).length }

def chunkEncode (buf : List Rat) (st : RunState) : RunState :=
  chunkEncodeAux buf.length buf st

def writeStage (env : PipeEnv) (emitted newPending : List Rat) (st : RunState) : RunState :=
  if emitted.length = 0 then
    { st with pending := newPending, writes := st.writes ++ [emitted.length * env.channels] }
  else
    chunkEncode (emitted.take (min emitted.length (env.maxS - st.total)))
      { st with pending := newPending,
                writes := st.writes ++ [emitted.length * env.channels],
                total := st.total + min emitted.length (env.maxS - st.total) }

def decodeStep (env : PipeEnv) (f : DecFrame) (st : RunState) : RunState :=
  let maxOut := 8192 / env.channels
  let req := min (ceilRescale f.nb env.rate env.inRate) maxOut
  let pool := st.pending ++ f.contrib
  writeStage env (pool.take req) (pool.drop req) st

def frameLoop (env : PipeEnv) : List DecFrame → RunState → RunState
  | [], st => st
  | f :: fs, st =>
    if env.maxS ≤ st.total then st
    else frameLoop env fs (decodeStep env f st)

def isGood : Packet → Bool
  | .good _ => true
  | _ => false

def packetLoop (env : PipeEnv) : List Packet → RunState → RunState
  | [], st => st
  | .other :: ps, st => packetLoop env ps st
  | .bad :: ps, st => packetLoop env ps st
  | .good fs :: ps, st =>
    if env.maxS ≤ (frameLoop env fs st).total then frameLoop env fs st
    else packetLoop env ps (frameLoop env fs st)

def flushLoopAux (env : PipeEnv) : Nat → RunState → RunState
  | 0, st => st
  | fuel + 1, st =>
    if env.maxS ≤ st.total then st
    else
      let maxOut := 8192 / env.channels
      let st1 := writeStage env (st.pending.take maxOut) (st.pending.drop maxOut) st
      if (st.pending.take maxOut).length = 0 then st1
      else flushLoopAux env fuel st1

def flushLoop (env : PipeEnv) (st : RunState) : RunState :=
  flushLoopAux env (st.pending.length + 1) st

def silenceLoopAux (env : PipeEnv) : Nat → Nat → RunState → RunState
  | 0, _, st => st
  | fuel + 1, rem, st =>
    if rem = 0 then st
    else
      let chunk := min 1024 rem
      silenceLoopAux env fuel (rem - chunk)
        { st with frames := st.frames ++ [⟨st.pts, List.replicate chunk 0⟩],
                  pts := st.pts + chunk }

def padSilence (env : PipeEnv) (st : RunState) : RunState :=
  if st.total < env.minS then silenceLoopAux env (env.minS - st.total) (env.minS - st.total) st
  else st

def pipeStage1 (env : PipeEnv) (pkts : List Packet) : RunState :=
  packetLoop env pkts initState

def pipeStage2 (env : PipeEnv) (pkts : List Packet) (flushTail : List Rat) : RunState :=
  flushLoop env
    { pipeStage1 env pkts with pending := (pipeStage1 env pkts).pending ++ flushTail }

def runPipeline (env : PipeEnv) (pkts : List Packet) (flushTail : List Rat) : RunState :=
  padSilence env (pipeStage2 env pkts flushTail)

def frameContrib (fs : List DecFrame) : List Rat := catLists (fs.map DecFrame.contrib)

def packetContrib : Packet → List Rat
  | .good fs => frameContrib fs
  | _ => []

def packetsContrib (ps : List Packet) : List Rat := catLists (ps.map packetContrib)

def resampledStream (pkts : List Packet) (flushTail : List Rat) : List Rat :=
  packetsContrib pkts ++ flushTail

structure SetupOutcome where
  openOk : Bool
  probeOk : Bool
  decoderOk : Bool
  encoderOk : Bool
  headerOk : Bool
  resamplerOk : Bool
  allocOk : Bool
  inSampleRate : Nat
  inChannels : Nat
deriving DecidableEq

def setupAllOk (su : SetupOutcome) : Bool :=
  su.openOk && su.probeOk && su.decoderOk && su.encoderOk &&
    su.headerOk && su.resamplerOk && su.allocOk

def process_file (cfg : ProcessorConfig) (su : SetupOutcome)
    (pkts : List Packet) (flushTail : List Rat) : Int × Option RunState :=
  if su.openOk = false then (-1, none)
  else if su.probeOk = false then (-1, none)
  else if su.decoderOk = false then (-1, none)
  else if su.encoderOk = false then (-1, none)
  else if su.headerOk = false then (-1, none)
  else if su.resamplerOk = false then (-1, none)
  else if su.allocOk = false then (-1, none)
  else
    let channels := if su.inChannels = 0 then 2 else su.inChannels
    (0, some (runPipeline (mkEnv cfg su.inSampleRate channels) pkts flushTail))

def Sane (st : RunState) : Prop :=
  chainedFrom 0 st.frames ∧ st.pts = (flatOut st).length ∧
    ∀ f ∈ st.frames, 1 ≤ f.samples.length ∧ f.samples.length ≤ 1024

/-! ## The worker pool (`worker_thread`, lines 342-363) -/

structure PoolState (W : Nat) where
  next : Nat
  finished : Fin W → Bool
  executed : List (Nat × Fin W)

def claimStep (N : Nat) {W : Nat} (s : PoolState W) (w : Fin W) : PoolState W :=
  if s.finished w then s
  else if s.next < N then
    { s with next := s.next + 1, executed := s.executed ++ [(s.next, w)] }
  else
    { s with next := s.next + 1, finished := fun v => if v = w then true else s.finished v }

def runPool (N W : Nat) (sched : List (Fin W)) : PoolState W :=
  sched.foldl (claimStep N) ⟨0, fun _ => false, []⟩

/-! ## Thread count computation (`main`, lines 463-476 and 509-523) -/

def poolInv (N : Nat) {W : Nat} (s : PoolState W) : Prop :=
  s.executed.map Prod.fst = List.range (min s.next N) ∧
    ((∃ w, s.finished w = true) → N < s.next)

def effective_threads (detected : Int) (threadsArg : Option Int) : Int :=
  let base : Int := if detected < 1 then 4 else detected
  match threadsArg with
  | some t => t
  | none => base

def clamped_threads (w taskCount : Int) : Int :=
  if taskCount < w then taskCount else w

def spawned_count (w taskCount : Int) : Nat := (clamped_threads w taskCount).toNat

/-! ## Theorems: helper lemmas for the extension filter -/

theorem toLower_eq_dot {c : Nat} (h : toLower c = 46) : c = 46 := by
  unfold toLower at h
  split at h <;> omega

theorem any_congr_on {α : Type} (l : List α) (f g : α → Bool)
    (h : ∀ x ∈ l, f x = g x) : l.any f = l.any g := by
  induction l with
  | nil => rfl
  | cons a l ih =>
    simp only [List.any_cons, h a (by simp)]
    rw [ih (fun x hx => h x (by simp [hx]))]

theorem audio_extensions_eq :
    audio_extensions =
      [[46,109,112,51],[46,119,97,118],[46,102,108,97,99],[46,109,52,97],
       [46,111,103,103],[46,97,97,99],[46,119,109,97],[46,111,112,117,115]] := by
  decide

theorem ext_all_dot (ext : List Nat) (h : ext ∈ audio_extensions) : ∃ t, ext = 46 :: t := by
  rw [audio_extensions_eq] at h
  simp only [List.mem_cons, List.not_mem_nil, or_false] at h
  rcases h with rfl|rfl|rfl|rfl|rfl|rfl|rfl|rfl <;> exact ⟨_, rfl⟩

theorem strict_loose_ext (name ext : List Nat) (t : List Nat) (hext : ext = 46 :: t)
    (hname : leadingDot name = false) :
    (decide (ext.length < name.length) && suffixCaseEq name ext) =
      (decide (ext.length ≤ name.length) && suffixCaseEq name ext) := by
  by_cases hlt : ext.length < name.length
  · simp [hlt, Nat.le_of_lt hlt]
  · by_cases hle : ext.length ≤ name.length
    · have heq : ext.length = name.length := by omega
      have hfalse : suffixCaseEq name ext = false := by
        apply decide_eq_false
        intro hmap
        rw [heq, Nat.sub_self, List.drop_zero] at hmap
        cases name with
        | nil => rw [hext] at heq; simp at heq
        | cons n ns =>
          rw [hext] at hmap
          simp only [List.map_cons, List.cons.injEq] at hmap
          have hn : toLower n = 46 := by
            rw [hmap.1]
            decide
          have : n = 46 := toLower_eq_dot hn
          subst this
          simp [leadingDot] at hname
      simp [hfalse]
    · simp [hlt, hle]

/-- C8: the file filter admits exactly the regular files whose name does not
begin with a dot and whose suffix case-insensitively matches one of the eight
audio extensions; in particular track.mp3, track.FLAC, track.opus are admitted
while track.txt and .hidden.mp3 are rejected. -/
theorem c8_filter_exact :
    (∀ (isRegular : Bool) (name : List Nat),
        walkerAccepts isRegular name = specAccepts isRegular name) ∧
    walkerAccepts true (ascii "track.mp3") = true ∧
    walkerAccepts true (ascii "track.FLAC") = true ∧
    walkerAccepts true (ascii "track.opus") = true ∧
    walkerAccepts true (ascii "track.txt") = false ∧
    walkerAccepts true (ascii ".hidden.mp3") = false := by
  refine ⟨?_, by decide, by decide, by decide, by decide, by decide⟩
  intro isReg name
  unfold walkerAccepts specAccepts is_audio_file
  cases hl : leadingDot name with
  | true => simp
  | false =>
    have hany :
        (audio_extensions.any fun ext =>
            decide (ext.length < name.length) && suffixCaseEq name ext) =
          (audio_extensions.any fun ext =>
            decide (ext.length ≤ name.length) && suffixCaseEq name ext) := by
      apply any_congr_on
      intro ext hx
      obtain ⟨t, ht⟩ := ext_all_dot ext hx
      exact strict_loose_ext name ext t ht hl
    rw [hany]
    cases isReg <;> simp

/-! ## Theorems: output path derivation -/

theorem lastIdx_not_mem {c : Nat} {xs : List Nat} (h : c ∉ xs) : lastIdx c xs = none := by
  induction xs with
  | nil => rfl
  | cons x xs ih =>
    simp only [List.mem_cons, not_or] at h
    unfold lastIdx
    rw [ih h.2]
    have hx : x ≠ c := fun he => h.1 he.symm
    simp [hx]

theorem lastIdx_append_cons {c : Nat} (xs : List Nat) {ys : List Nat} (h : c ∉ ys) :
    lastIdx c (xs ++ c :: ys) = some xs.length := by
  induction xs with
  | nil =>
    rw [List.nil_append]
    unfold lastIdx
    rw [lastIdx_not_mem h]
    simp
  | cons x xs ih =>
    rw [List.cons_append]
    unfold lastIdx
    rw [ih]
    simp

/-- C5: the derived output path is the output root, then the directory
components relative to the input root unchanged, then the filename with the
substring after the last dot replaced by the fixed lowercase wav extension. -/
theorem c5_output_path (outputDir relPath name : List Nat) (h : 47 ∉ name) :
    build_output_path outputDir relPath name = spec_output_path outputDir relPath name := by
  unfold build_output_path spec_output_path
  by_cases hr : relPath = []
  · simp [hr]
  · rw [if_neg hr, if_neg hr, lastIdx_append_cons relPath h]
    dsimp only
    rw [List.take_left]
    simp

theorem c5_output_path_witness :
    (47 ∉ ascii "song.MP3") ∧
      build_output_path (ascii "B") (ascii "x/y") (ascii "song.MP3") = ascii "B/x/y/song.wav" :=
  ⟨by decide, (c5_output_path (ascii "B") (ascii "x/y") (ascii "song.MP3") (by decide)).trans (by decide)⟩

/-! ## Theorems: worker pool claiming -/

theorem claimStep_inv (N : Nat) {W : Nat} (s : PoolState W) (w : Fin W) (h : poolInv N s) :
    poolInv N (claimStep N s w) := by
  obtain ⟨he, hf⟩ := h
  unfold claimStep poolInv
  by_cases hfin : s.finished w = true
  · rw [if_pos hfin]
    exact ⟨he, hf⟩
  · rw [if_neg hfin]
    by_cases hlt : s.next < N
    · rw [if_pos hlt]
      dsimp only
      constructor
      · rw [List.map_append, he]
        have h1 : min s.next N = s.next := by omega
        have h2 : min (s.next + 1) N = s.next + 1 := by omega
        rw [h1, h2, List.range_succ]
        simp
      · intro hex
        have := hf hex
        omega
    · rw [if_neg hlt]
      dsimp only
      constructor
      · have h1 : min s.next N = N := by omega
        have h2 : min (s.next + 1) N = N := by omega
        rw [h2, ← h1]
        exact he
      · intro _
        omega

theorem foldl_claim_inv (N : Nat) {W : Nat} (sched : List (Fin W)) (s : PoolState W)
    (h : poolInv N s) : poolInv N (sched.foldl (claimStep N) s) := by
  induction sched generalizing s with
  | nil => exact h
  | cons a l ih => exact ih _ (claimStep_inv N s a h)

/-- C4: in a complete run of the worker pool (every worker has terminated),
the sequence of task indices claimed and executed, in claim order, is exactly
0, 1, ..., N-1: each index executed exactly once, none skipped, none
duplicated, whichever workers claimed them. -/
theorem c4_pool_partition (N W : Nat) (sched : List (Fin W)) (hW : 0 < W)
    (hdone : ∀ w : Fin W, (runPool N W sched).finished w = true) :
    (runPool N W sched).executed.map Prod.fst = List.range N := by
  have h0 : poolInv N (⟨0, fun _ => false, []⟩ : PoolState W) := by
    constructor
    · simp
    · rintro ⟨v, hv⟩
      simp at hv
  have hinv := foldl_claim_inv N sched _ h0
  obtain ⟨he, hf⟩ := hinv
  have hx : N < (runPool N W sched).next := by
    apply hf
    exact ⟨⟨0, hW⟩, hdone ⟨0, hW⟩⟩
  unfold runPool at *
  rw [he]
  congr 1
  omega

theorem c4_pool_partition_witness :
    (0 < 2 ∧ ∀ w : Fin 2, (runPool 3 2 [0, 1, 0, 0, 1]).finished w = true) ∧
      (runPool 3 2 [0, 1, 0, 0, 1]).executed.map Prod.fst = List.range 3 :=
  ⟨⟨by decide, by decide⟩, c4_pool_partition 3 2 [0, 1, 0, 0, 1] (by decide) (by decide)⟩

/-! ## Theorems: thread count -/

theorem clamped_eq_min (w taskCount : Int) : clamped_threads w taskCount = min w taskCount := by
  unfold clamped_threads
  rw [min_def]
  split <;> split <;> omega

/-- C7 counterexample: with a requested worker count of 0 (the user passes a
zero --threads value) and five tasks, the program spawns zero worker threads,
so the claimed lower bound of one spawned worker is false. -/
theorem c7_counterexample :
    spawned_count (effective_threads 8 (some 0)) 5 = 0 ∧
      ¬ 1 ≤ spawned_count (effective_threads 8 (some 0)) 5 := by decide

/-- C7 amended: the number of spawned workers always equals
max 0 (min W N); it equals min W N and is at least 1 whenever the requested
count W is at least 1 (which always holds for the auto-detected default) and
at least one task exists. -/
theorem c7_amended (detected : Int) (threadsArg : Option Int) (taskCount : Int)
    (hw : 1 ≤ effective_threads detected threadsArg) (hN : 1 ≤ taskCount) :
    spawned_count (effective_threads detected threadsArg) taskCount =
        (min (effective_threads detected threadsArg) taskCount).toNat ∧
      1 ≤ spawned_count (effective_threads detected threadsArg) taskCount ∧
      1 ≤ effective_threads detected none := by
  refine ⟨by rw [spawned_count, clamped_eq_min], ?_, ?_⟩
  · rw [spawned_count, clamped_eq_min, min_def]
    split <;> omega
  · unfold effective_threads
    dsimp only
    split <;> omega

theorem c7_amended_witness :
    (1 ≤ effective_threads 8 none ∧ 1 ≤ (5 : Int)) ∧
      (spawned_count (effective_threads 8 none) 5 = (min (effective_threads 8 none) 5).toNat ∧
        1 ≤ spawned_count (effective_threads 8 none) 5 ∧
        1 ≤ effective_threads 8 none) :=
  ⟨⟨by decide, by decide⟩, c7_amended 8 none 5 (by decide) (by decide)⟩

/-! ## Theorems: pipeline basic lemmas -/

theorem catFrames_append (A B : List EncFrame) :
    catFrames (A ++ B) = catFrames A ++ catFrames B := by
  induction A with
  | nil => rfl
  | cons f fs ih => simp [catFrames, ih]

theorem catLists_append (A B : List (List Rat)) :
    catLists (A ++ B) = catLists A ++ catLists B := by
  induction A with
  | nil => rfl
  | cons l ls ih => simp [catLists, ih]

theorem chainedFrom_append {p : Nat} {A B : List EncFrame} (hA : chainedFrom p A)
    (hB : chainedFrom (p + (catFrames A).length) B) : chainedFrom p (A ++ B) := by
  induction A generalizing p with
  | nil => simpa [catFrames] using hB
  | cons f fs ih =>
    obtain ⟨h1, h2⟩ := hA
    refine ⟨h1, ih h2 ?_⟩
    have heq : p + f.samples.length + (catFrames fs).length = p + (catFrames (f :: fs)).length := by
      simp only [catFrames, List.length_append]
      omega
    rw [heq]
    exact hB

theorem chained_le {p : Nat} {fs : List EncFrame} (h : chainedFrom p fs) :
    ∀ f ∈ fs, p ≤ f.pts := by
  induction fs generalizing p with
  | nil => simp
  | cons g gs ih =>
    obtain ⟨h1, h2⟩ := h
    intro f hf
    rcases List.mem_cons.mp hf with rfl | hf
    · omega
    · have := ih h2 f hf
      omega

theorem chained_pairwise {p : Nat} {fs : List EncFrame} (h : chainedFrom p fs)
    (hpos : ∀ f ∈ fs, 1 ≤ f.samples.length) :
    fs.Pairwise (fun a b => a.pts < b.pts) := by
  induction fs generalizing p with
  | nil => exact List.Pairwise.nil
  | cons g gs ih =>
    obtain ⟨h1, h2⟩ := h
    constructor
    · intro b hb
      have hb1 := chained_le h2 b hb
      have hg := hpos g (by simp)
      omega
    · exact ih h2 (fun f hf => hpos f (by simp [hf]))

theorem chunkEncodeAux_spec (fuel : Nat) :
    ∀ (buf : List Rat) (st : RunState), buf.length ≤ fuel →
      (chunkEncodeAux fuel buf st).pending = st.pending ∧
      (chunkEncodeAux fuel buf st).total = st.total ∧
      (chunkEncodeAux fuel buf st).writes = st.writes ∧
      (chunkEncodeAux fuel buf st).pts = st.pts + buf.length ∧
      ∃ new, (chunkEncodeAux fuel buf st).frames = st.frames ++ new ∧
        catFrames new = buf ∧ chainedFrom st.pts new ∧
        ∀ f ∈ new, 1 ≤ f.samples.length ∧ f.samples.length ≤ 1024 := by
  induction fuel with
  | zero =>
    intro buf st h
    have hb : buf = [] := List.length_eq_zero.mp (by omega)
    subst hb
    exact ⟨rfl, rfl, rfl, by simp [chunkEncodeAux],
      ⟨[], by simp [chunkEncodeAux], rfl, trivial, by simp⟩⟩
  | succ fuel ih =>
    intro buf st h
    by_cases hb : buf = []
    · subst hb
      unfold chunkEncodeAux
      rw [if_pos rfl]
      exact ⟨rfl, rfl, rfl, by simp, ⟨[], by simp, rfl, trivial, by simp⟩⟩
    · unfold chunkEncodeAux
      rw [if_neg hb]
      have hpos : 0 < buf.length := List.length_pos.mpr hb
      have hlen : (buf.drop 1024).length ≤ fuel := by
        simp only [List.length_drop]
        omega
      obtain ⟨hp, ht, hw, hpts, new, hfr, hcat, hchn, hbnd⟩ := ih (buf.drop 1024)
        { st with frames := st.frames ++ [⟨st.pts, buf.take 1024⟩],
                  pts := st.pts + (buf.take 1024).length } hlen
      refine ⟨hp, ht, hw, ?_, ⟨⟨st.pts, buf.take 1024⟩ :: new, ?_, ?_, ?_, ?_⟩⟩
      · rw [hpts]
        simp only [List.length_take, List.length_drop]
        omega
      · rw [hfr]
        simp
      · simp only [catFrames, hcat]
        exact List.take_append_drop 1024 buf
      · refine ⟨rfl, ?_⟩
        exact hchn
      · intro f hf
        rcases List.mem_cons.mp hf with rfl | hf
        · simp only [List.length_take]
          omega
        · exact hbnd f hf

theorem chunkEncode_spec (buf : List Rat) (st : RunState) :
    (chunkEncode buf st).pending = st.pending ∧
    (chunkEncode buf st).total = st.total ∧
    (chunkEncode buf st).writes = st.writes ∧
    (chunkEncode buf st).pts = st.pts + buf.length ∧
    ∃ new, (chunkEncode buf st).frames = st.frames ++ new ∧
      catFrames new = buf ∧ chainedFrom st.pts new ∧
      ∀ f ∈ new, 1 ≤ f.samples.length ∧ f.samples.length ≤ 1024 :=
  chunkEncodeAux_spec buf.length buf st (Nat.le_refl _)

/-! ## Theorems: the write/chunk/encode stage -/

theorem flatOut_fields (st : RunState) : flatOut st = catFrames st.frames := rfl

theorem writeStage_spec (env : PipeEnv) (emitted newPending : List Rat) (st : RunState)
    (hlt : st.total < env.maxS) (htot : st.total = (flatOut st).length) :
    (writeStage env emitted newPending st).total =
        (flatOut (writeStage env emitted newPending st)).length ∧
    (writeStage env emitted newPending st).total ≤ env.maxS ∧
    (writeStage env emitted newPending st).pending = newPending ∧
    (((writeStage env emitted newPending st).total < env.maxS ∧
        flatOut (writeStage env emitted newPending st) ++ newPending =
          flatOut st ++ (emitted ++ newPending)) ∨
     ((writeStage env emitted newPending st).total = env.maxS ∧
        ∃ junk, flatOut (writeStage env emitted newPending st) ++ junk =
          flatOut st ++ (emitted ++ newPending))) := by
  unfold writeStage
  by_cases he : emitted.length = 0
  · rw [if_pos he]
    have hemp : emitted = [] := List.length_eq_zero.mp he
    subst hemp
    exact ⟨htot, Nat.le_of_lt hlt, rfl, Or.inl ⟨hlt, by simp [flatOut_fields]⟩⟩
  · rw [if_neg he]
    obtain ⟨hp, ht, hw, hpts2, new, hfr, hcat, hchn, hbnd⟩ :=
      chunkEncode_spec
        (emitted.take (min emitted.length (env.maxS - st.total)))
        { st with pending := newPending,
                  writes := st.writes ++ [emitted.length * env.channels],
                  total := st.total + min emitted.length (env.maxS - st.total) }
    have hlen_take : (emitted.take (min emitted.length (env.maxS - st.total))).length
        = min emitted.length (env.maxS - st.total) := by
      rw [List.length_take]
      omega
    have hflat : flatOut (chunkEncode (emitted.take (min emitted.length (env.maxS - st.total)))
          { st with pending := newPending,
                    writes := st.writes ++ [emitted.length * env.channels],
                    total := st.total + min emitted.length (env.maxS - st.total) }) =
        flatOut st ++ emitted.take (min emitted.length (env.maxS - st.total)) := by
      rw [flatOut_fields, hfr, catFrames_append, hcat]
      rfl
    have httl : (chunkEncode (emitted.take (min emitted.length (env.maxS - st.total)))
          { st with pending := newPending,
                    writes := st.writes ++ [emitted.length * env.channels],
                    total := st.total + min emitted.length (env.maxS - st.total) }).total =
        st.total + min emitted.length (env.maxS - st.total) := ht
    refine ⟨?_, ?_, hp, ?_⟩
    · rw [httl, hflat, List.length_append, hlen_take, htot]
    · rw [httl]
      omega
    · by_cases hfull : st.total + min emitted.length (env.maxS - st.total) < env.maxS
      · left
        have hmin : min emitted.length (env.maxS - st.total) = emitted.length := by omega
        refine ⟨by rw [httl]; exact hfull, ?_⟩
        rw [hflat, hmin, List.take_length, List.append_assoc]
      · right
        refine ⟨by rw [httl]; omega, ?_⟩
        refine ⟨emitted.drop (min emitted.length (env.maxS - st.total)) ++ newPending, ?_⟩
        rw [hflat, List.append_assoc,
          ← List.append_assoc (emitted.take (min emitted.length (env.maxS - st.total))),
          List.take_append_drop]

theorem writeStage_sane (env : PipeEnv) (emitted newPending : List Rat) (st : RunState)
    (hs : Sane st) : Sane (writeStage env emitted newPending st) := by
  obtain ⟨hchain, hpts, hbnd⟩ := hs
  unfold writeStage
  by_cases he : emitted.length = 0
  · rw [if_pos he]
    exact ⟨hchain, hpts, hbnd⟩
  · rw [if_neg he]
    obtain ⟨hp, ht, hw, hpts2, new, hfr, hcat, hchn, hbnd2⟩ :=
      chunkEncode_spec
        (emitted.take (min emitted.length (env.maxS - st.total)))
        { st with pending := newPending,
                  writes := st.writes ++ [emitted.length * env.channels],
                  total := st.total + min emitted.length (env.maxS - st.total) }
    refine ⟨?_, ?_, ?_⟩
    · rw [hfr]
      apply chainedFrom_append hchain
      rw [Nat.zero_add, ← flatOut_fields, ← hpts]
      exact hchn
    · rw [hpts2, flatOut_fields, hfr, catFrames_append, hcat, List.length_append]
      rw [hpts, flatOut_fields]
    · intro f hf
      rw [hfr] at hf
      rcases List.mem_append.mp hf with h | h
      · exact hbnd f h
      · exact hbnd2 f h

theorem writeStage_writes (env : PipeEnv) (emitted newPending : List Rat) (st : RunState)
    (hch : 0 < env.channels) (hemit : emitted.length ≤ 8192 / env.channels)
    (hw : ∀ x ∈ st.writes, x ≤ 8192) :
    ∀ x ∈ (writeStage env emitted newPending st).writes, x ≤ 8192 := by
  have hbound : emitted.length * env.channels ≤ 8192 := (Nat.le_div_iff_mul_le hch).mp hemit
  have hnew : ∀ x ∈ st.writes ++ [emitted.length * env.channels], x ≤ 8192 := by
    intro x hx
    rcases List.mem_append.mp hx with h | h
    · exact hw x h
    · rw [List.mem_singleton.mp h]
      exact hbound
  unfold writeStage
  by_cases he : emitted.length = 0
  · rw [if_pos he]
    exact hnew
  · rw [if_neg he]
    obtain ⟨_, _, hw2, _⟩ :=
      chunkEncode_spec
        (emitted.take (min emitted.length (env.maxS - st.total)))
        { st with pending := newPending,
                  writes := st.writes ++ [emitted.length * env.channels],
                  total := st.total + min emitted.length (env.maxS - st.total) }
    intro x hx
    rw [hw2] at hx
    exact hnew x hx

theorem writeStage_framesLe (env : PipeEnv) (emitted newPending : List Rat) (st : RunState)
    (hb : ∀ f ∈ st.frames, f.samples.length ≤ 1024) :
    ∀ f ∈ (writeStage env emitted newPending st).frames, f.samples.length ≤ 1024 := by
  unfold writeStage
  by_cases he : emitted.length = 0
  · rw [if_pos he]
    exact hb
  · rw [if_neg he]
    obtain ⟨_, _, _, _, new, hfr, _, _, hbnd⟩ :=
      chunkEncode_spec
        (emitted.take (min emitted.length (env.maxS - st.total)))
        { st with pending := newPending,
                  writes := st.writes ++ [emitted.length * env.channels],
                  total := st.total + min emitted.length (env.maxS - st.total) }
    intro f hf
    rw [hfr] at hf
    rcases List.mem_append.mp hf with h | h
    · exact hb f h
    · exact (hbnd f h).2

/-! ## Theorems: the streaming decode loop -/

theorem decodeStep_spec (env : PipeEnv) (f : DecFrame) (st : RunState)
    (hlt : st.total < env.maxS) (htot : st.total = (flatOut st).length) :
    (decodeStep env f st).total = (flatOut (decodeStep env f st)).length ∧
    (decodeStep env f st).total ≤ env.maxS ∧
    (((decodeStep env f st).total < env.maxS ∧
        flatOut (decodeStep env f st) ++ (decodeStep env f st).pending =
          flatOut st ++ st.pending ++ f.contrib) ∨
     ((decodeStep env f st).total = env.maxS ∧
        ∃ junk, flatOut (decodeStep env f st) ++ junk =
          flatOut st ++ st.pending ++ f.contrib)) := by
  simp only [decodeStep]
  have h := writeStage_spec env
    ((st.pending ++ f.contrib).take
      (min (ceilRescale f.nb env.rate env.inRate) (8192 / env.channels)))
    ((st.pending ++ f.contrib).drop
      (min (ceilRescale f.nb env.rate env.inRate) (8192 / env.channels)))
    st hlt htot
  rw [List.take_append_drop] at h
  obtain ⟨h1, h2, h3, h4⟩ := h
  refine ⟨h1, h2, ?_⟩
  rcases h4 with ⟨ha, hb⟩ | ⟨ha, junk, hb⟩
  · left
    refine ⟨ha, ?_⟩
    rw [h3, hb, List.append_assoc]
  · right
    refine ⟨ha, junk, ?_⟩
    rw [hb, List.append_assoc]

theorem frameLoop_saturated (env : PipeEnv) (fs : List DecFrame) (st : RunState)
    (h : env.maxS ≤ st.total) : frameLoop env fs st = st := by
  cases fs with
  | nil => rfl
  | cons f fs =>
    unfold frameLoop
    rw [if_pos h]

theorem frameLoop_spec (env : PipeEnv) (fs : List DecFrame) (st : RunState)
    (htot : st.total = (flatOut st).length) (hle : st.total ≤ env.maxS) :
    (frameLoop env fs st).total = (flatOut (frameLoop env fs st)).length ∧
    (frameLoop env fs st).total ≤ env.maxS ∧
    (((frameLoop env fs st).total < env.maxS ∧
        flatOut (frameLoop env fs st) ++ (frameLoop env fs st).pending =
          flatOut st ++ st.pending ++ frameContrib fs) ∨
     ((frameLoop env fs st).total = env.maxS ∧
        ∃ junk, flatOut (frameLoop env fs st) ++ junk =
          flatOut st ++ st.pending ++ frameContrib fs)) := by
  induction fs generalizing st with
  | nil =>
    refine ⟨htot, hle, ?_⟩
    simp only [frameLoop]
    rcases Nat.lt_or_ge st.total env.maxS with h | h
    · exact Or.inl ⟨h, by simp [frameContrib, catLists]⟩
    · exact Or.inr ⟨by omega, st.pending, by simp [frameContrib, catLists]⟩
  | cons f fs ih =>
    have hcontrib : frameContrib (f :: fs) = f.contrib ++ frameContrib fs := by
      simp [frameContrib, catLists]
    by_cases hguard : env.maxS ≤ st.total
    · rw [frameLoop_saturated env (f :: fs) st hguard]
      refine ⟨htot, hle, Or.inr ⟨by omega, st.pending ++ frameContrib (f :: fs), ?_⟩⟩
      rw [← List.append_assoc]
    · have hlt : st.total < env.maxS := by omega
      have hstep : frameLoop env (f :: fs) st = frameLoop env fs (decodeStep env f st) := by
        show (if env.maxS ≤ st.total then st else frameLoop env fs (decodeStep env f st)) =
          frameLoop env fs (decodeStep env f st)
        rw [if_neg hguard]
      rw [hstep]
      obtain ⟨d1, d2, d3⟩ := decodeStep_spec env f st hlt htot
      rcases d3 with ⟨ha, hb⟩ | ⟨ha, junk, hb⟩
      · obtain ⟨g1, g2, g3⟩ := ih (decodeStep env f st) d1 d2
        refine ⟨g1, g2, ?_⟩
        rcases g3 with ⟨ga, gb⟩ | ⟨ga, junk2, gb⟩
        · left
          refine ⟨ga, ?_⟩
          rw [gb, hb, hcontrib]
          simp [List.append_assoc]
        · right
          refine ⟨ga, junk2, ?_⟩
          rw [gb, hb, hcontrib]
          simp [List.append_assoc]
      · have hsat : frameLoop env fs (decodeStep env f st) = decodeStep env f st :=
          frameLoop_saturated env fs _ (by omega)
        rw [hsat]
        refine ⟨d1, d2, Or.inr ⟨ha, junk ++ frameContrib fs, ?_⟩⟩
        rw [← List.append_assoc, hb, hcontrib]
        simp [List.append_assoc]

/-! ## Theorems: the packet loop -/

theorem packetLoop_saturated (env : PipeEnv) (ps : List Packet) (st : RunState)
    (h : env.maxS ≤ st.total) : packetLoop env ps st = st := by
  induction ps with
  | nil => rfl
  | cons p ps ih =>
    cases p with
    | other => exact ih
    | bad => exact ih
    | good fs =>
      unfold packetLoop
      rw [frameLoop_saturated env fs st h, if_pos h]

theorem packetLoop_spec (env : PipeEnv) (ps : List Packet) (st : RunState)
    (htot : st.total = (flatOut st).length) (hle : st.total ≤ env.maxS) :
    (packetLoop env ps st).total = (flatOut (packetLoop env ps st)).length ∧
    (packetLoop env ps st).total ≤ env.maxS ∧
    (((packetLoop env ps st).total < env.maxS ∧
        flatOut (packetLoop env ps st) ++ (packetLoop env ps st).pending =
          flatOut st ++ st.pending ++ packetsContrib ps) ∨
     ((packetLoop env ps st).total = env.maxS ∧
        ∃ junk, flatOut (packetLoop env ps st) ++ junk =
          flatOut st ++ st.pending ++ packetsContrib ps)) := by
  induction ps generalizing st with
  | nil =>
    refine ⟨htot, hle, ?_⟩
    simp only [packetLoop]
    rcases Nat.lt_or_ge st.total env.maxS with h | h
    · exact Or.inl ⟨h, by simp [packetsContrib, catLists]⟩
    · exact Or.inr ⟨by omega, st.pending, by simp [packetsContrib, catLists]⟩
  | cons p ps ih =>
    cases p with
    | other =>
      have hpc : packetsContrib (Packet.other :: ps) = packetsContrib ps := by
        simp [packetsContrib, packetContrib, catLists]
      rw [show packetLoop env (Packet.other :: ps) st = packetLoop env ps st from rfl, hpc]
      exact ih st htot hle
    | bad =>
      have hpc : packetsContrib (Packet.bad :: ps) = packetsContrib ps := by
        simp [packetsContrib, packetContrib, catLists]
      rw [show packetLoop env (Packet.bad :: ps) st = packetLoop env ps st from rfl, hpc]
      exact ih st htot hle
    | good fs =>
      have hpc : packetsContrib (Packet.good fs :: ps) =
          frameContrib fs ++ packetsContrib ps := by
        simp [packetsContrib, packetContrib, catLists]
      obtain ⟨f1, f2, f3⟩ := frameLoop_spec env fs st htot hle
      by_cases hguard : env.maxS ≤ (frameLoop env fs st).total
      · have hstep : packetLoop env (Packet.good fs :: ps) st = frameLoop env fs st := by
          show (if env.maxS ≤ (frameLoop env fs st).total then frameLoop env fs st
            else packetLoop env ps (frameLoop env fs st)) = frameLoop env fs st
          rw [if_pos hguard]
        rw [hstep, hpc]
        refine ⟨f1, f2, ?_⟩
        rcases f3 with ⟨fa, _⟩ | ⟨fa, junk, fb⟩
        · omega
        · refine Or.inr ⟨fa, junk ++ packetsContrib ps, ?_⟩
          rw [← List.append_assoc, fb]
          simp [List.append_assoc]
      · have hstep : packetLoop env (Packet.good fs :: ps) st =
            packetLoop env ps (frameLoop env fs st) := by
          show (if env.maxS ≤ (frameLoop env fs st).total then frameLoop env fs st
            else packetLoop env ps (frameLoop env fs st)) = packetLoop env ps (frameLoop env fs st)
          rw [if_neg hguard]
        rw [hstep, hpc]
        obtain ⟨g1, g2, g3⟩ := ih (frameLoop env fs st) f1 f2
        refine ⟨g1, g2, ?_⟩
        rcases f3 with ⟨fa, fb⟩ | ⟨fa, _, _⟩
        · rcases g3 with ⟨ga, gb⟩ | ⟨ga, junk2, gb⟩
          · left
            refine ⟨ga, ?_⟩
            rw [gb, fb]
            simp [List.append_assoc]
          · right
            refine ⟨ga, junk2, ?_⟩
            rw [gb, fb]
            simp [List.append_assoc]
        · omega

theorem packetLoop_append (env : PipeEnv) (ps qs : List Packet) (st : RunState) :
    packetLoop env (ps ++ qs) st = packetLoop env qs (packetLoop env ps st) := by
  induction ps generalizing st with
  | nil => rfl
  | cons p ps ih =>
    cases p with
    | other => exact ih st
    | bad => exact ih st
    | good fs =>
      rw [List.cons_append]
      by_cases hguard : env.maxS ≤ (frameLoop env fs st).total
      · have h1 : packetLoop env (Packet.good fs :: (ps ++ qs)) st = frameLoop env fs st := by
          show (if env.maxS ≤ (frameLoop env fs st).total then frameLoop env fs st
            else packetLoop env (ps ++ qs) (frameLoop env fs st)) = frameLoop env fs st
          rw [if_pos hguard]
        have h2 : packetLoop env (Packet.good fs :: ps) st = frameLoop env fs st := by
          show (if env.maxS ≤ (frameLoop env fs st).total then frameLoop env fs st
            else packetLoop env ps (frameLoop env fs st)) = frameLoop env fs st
          rw [if_pos hguard]
        rw [h1, h2, packetLoop_saturated env qs _ hguard]
      · have h1 : packetLoop env (Packet.good fs :: (ps ++ qs)) st =
            packetLoop env (ps ++ qs) (frameLoop env fs st) := by
          show (if env.maxS ≤ (frameLoop env fs st).total then frameLoop env fs st
            else packetLoop env (ps ++ qs) (frameLoop env fs st)) =
            packetLoop env (ps ++ qs) (frameLoop env fs st)
          rw [if_neg hguard]
        have h2 : packetLoop env (Packet.good fs :: ps) st =
            packetLoop env ps (frameLoop env fs st) := by
          show (if env.maxS ≤ (frameLoop env fs st).total then frameLoop env fs st
            else packetLoop env ps (frameLoop env fs st)) = packetLoop env ps (frameLoop env fs st)
          rw [if_neg hguard]
        rw [h1, h2, ih]

theorem packetLoop_filter (env : PipeEnv) (ps : List Packet) (st : RunState) :
    packetLoop env ps st = packetLoop env (ps.filter isGood) st := by
  induction ps generalizing st with
  | nil => rfl
  | cons p ps ih =>
    cases p with
    | other =>
      rw [show (Packet.other :: ps).filter isGood = ps.filter isGood from rfl]
      exact ih st
    | bad =>
      rw [show (Packet.bad :: ps).filter isGood = ps.filter isGood from rfl]
      exact ih st
    | good fs =>
      rw [show (Packet.good fs :: ps).filter isGood = Packet.good fs :: ps.filter isGood from rfl]
      by_cases hguard : env.maxS ≤ (frameLoop env fs st).total
      · have h1 : packetLoop env (Packet.good fs :: ps) st = frameLoop env fs st := by
          show (if env.maxS ≤ (frameLoop env fs st).total then frameLoop env fs st
            else packetLoop env ps (frameLoop env fs st)) = frameLoop env fs st
          rw [if_pos hguard]
        have h2 : packetLoop env (Packet.good fs :: ps.filter isGood) st = frameLoop env fs st := by
          show (if env.maxS ≤ (frameLoop env fs st).total then frameLoop env fs st
            else packetLoop env (ps.filter isGood) (frameLoop env fs st)) = frameLoop env fs st
          rw [if_pos hguard]
        rw [h1, h2]
      · have h1 : packetLoop env (Packet.good fs :: ps) st =
            packetLoop env ps (frameLoop env fs st) := by
          show (if env.maxS ≤ (frameLoop env fs st).total then frameLoop env fs st
            else packetLoop env ps (frameLoop env fs st)) = packetLoop env ps (frameLoop env fs st)
          rw [if_neg hguard]
        have h2 : packetLoop env (Packet.good fs :: ps.filter isGood) st =
            packetLoop env (ps.filter isGood) (frameLoop env fs st) := by
          show (if env.maxS ≤ (frameLoop env fs st).total then frameLoop env fs st
            else packetLoop env (ps.filter isGood) (frameLoop env fs st)) =
            packetLoop env (ps.filter isGood) (frameLoop env fs st)
          rw [if_neg hguard]
        rw [h1, h2, ih]

/-! ## Theorems: the resampler flush loop -/

theorem flushLoopAux_saturated (env : PipeEnv) (fuel : Nat) (st : RunState)
    (h : env.maxS ≤ st.total) : flushLoopAux env fuel st = st := by
  cases fuel with
  | zero => rfl
  | succ fuel =>
    simp only [flushLoopAux]
    rw [if_pos h]

theorem flushLoopAux_inv (env : PipeEnv) (fuel : Nat) :
    ∀ st : RunState, st.total = (flatOut st).length → st.total ≤ env.maxS →
      (flushLoopAux env fuel st).total = (flatOut (flushLoopAux env fuel st)).length ∧
      (flushLoopAux env fuel st).total ≤ env.maxS := by
  induction fuel with
  | zero =>
    intro st htot hle
    exact ⟨htot, hle⟩
  | succ fuel ih =>
    intro st htot hle
    by_cases hg : env.maxS ≤ st.total
    · rw [flushLoopAux_saturated env _ st hg]
      exact ⟨htot, hle⟩
    · have hlt : st.total < env.maxS := by omega
      simp only [flushLoopAux]
      rw [if_neg hg]
      obtain ⟨w1, w2, w3, w4⟩ := writeStage_spec env (st.pending.take (8192 / env.channels))
        (st.pending.drop (8192 / env.channels)) st hlt htot
      by_cases hemp : (st.pending.take (8192 / env.channels)).length = 0
      · rw [if_pos hemp]
        exact ⟨w1, w2⟩
      · rw [if_neg hemp]
        exact ih _ w1 w2

theorem flushLoopAux_spec (env : PipeEnv) (hmo : 0 < 8192 / env.channels) (fuel : Nat) :
    ∀ st : RunState, st.pending.length ≤ fuel →
      st.total = (flatOut st).length → st.total ≤ env.maxS →
      (flushLoopAux env fuel st).total = (flatOut (flushLoopAux env fuel st)).length ∧
      (((flushLoopAux env fuel st).total < env.maxS ∧
          flatOut (flushLoopAux env fuel st) = flatOut st ++ st.pending) ∨
       ((flushLoopAux env fuel st).total = env.maxS ∧
          ∃ junk, flatOut (flushLoopAux env fuel st) ++ junk = flatOut st ++ st.pending)) := by
  induction fuel with
  | zero =>
    intro st hf htot hle
    have hpend : st.pending = [] := List.length_eq_zero.mp (by omega)
    simp only [flushLoopAux]
    refine ⟨htot, ?_⟩
    rcases Nat.lt_or_ge st.total env.maxS with h | h
    · exact Or.inl ⟨h, by simp [hpend]⟩
    · exact Or.inr ⟨by omega, [], by simp [hpend]⟩
  | succ fuel ih =>
    intro st hf htot hle
    by_cases hg : env.maxS ≤ st.total
    · rw [flushLoopAux_saturated env _ st hg]
      exact ⟨htot, Or.inr ⟨by omega, st.pending, rfl⟩⟩
    · have hlt : st.total < env.maxS := by omega
      simp only [flushLoopAux]
      rw [if_neg hg]
      obtain ⟨w1, w2, w3, w4⟩ := writeStage_spec env (st.pending.take (8192 / env.channels))
        (st.pending.drop (8192 / env.channels)) st hlt htot
      rw [List.take_append_drop] at w4
      by_cases hemp : (st.pending.take (8192 / env.channels)).length = 0
      · rw [if_pos hemp]
        have hpend : st.pending = [] := by
          rw [List.length_take] at hemp
          exact List.length_eq_zero.mp (by omega)
        refine ⟨w1, ?_⟩
        rcases w4 with ⟨ha, hb⟩ | ⟨ha, junk, hb⟩
        · left
          refine ⟨ha, ?_⟩
          rw [hpend] at hb ⊢
          simpa using hb
        · exact Or.inr ⟨ha, junk, hb⟩
      · rw [if_neg hemp]
        have hfuel : (writeStage env (st.pending.take (8192 / env.channels))
            (st.pending.drop (8192 / env.channels)) st).pending.length ≤ fuel := by
          rw [w3, List.length_drop]
          rw [List.length_take] at hemp
          omega
        rcases w4 with ⟨ha, hb⟩ | ⟨ha, junk, hb⟩
        · obtain ⟨g1, g2⟩ := ih _ hfuel w1 w2
          refine ⟨g1, ?_⟩
          rcases g2 with ⟨ga, gb⟩ | ⟨ga, junk2, gb⟩
          · left
            refine ⟨ga, ?_⟩
            rw [gb, w3]
            exact hb
          · right
            refine ⟨ga, junk2, ?_⟩
            rw [gb, w3]
            exact hb
        · have hsat := flushLoopAux_saturated env fuel
            (writeStage env (st.pending.take (8192 / env.channels))
              (st.pending.drop (8192 / env.channels)) st) (by omega)
          rw [hsat]
          exact ⟨w1, Or.inr ⟨ha, junk, hb⟩⟩

/-! ## Theorems: silence padding -/

theorem silenceLoopAux_spec (env : PipeEnv) (fuel : Nat) :
    ∀ (rem : Nat) (st : RunState), rem ≤ fuel →
      (silenceLoopAux env fuel rem st).pending = st.pending ∧
      (silenceLoopAux env fuel rem st).total = st.total ∧
      (silenceLoopAux env fuel rem st).writes = st.writes ∧
      (silenceLoopAux env fuel rem st).pts = st.pts + rem ∧
      ∃ new, (silenceLoopAux env fuel rem st).frames = st.frames ++ new ∧
        catFrames new = List.replicate rem 0 ∧ chainedFrom st.pts new ∧
        ∀ f ∈ new, 1 ≤ f.samples.length ∧ f.samples.length ≤ 1024 := by
  induction fuel with
  | zero =>
    intro rem st h
    have hr : rem = 0 := by omega
    subst hr
    simp only [silenceLoopAux]
    exact ⟨by simp, by simp, by simp, by simp, ⟨[], by simp, rfl, trivial, by simp⟩⟩
  | succ fuel ih =>
    intro rem st h
    by_cases hr : rem = 0
    · simp only [silenceLoopAux]
      rw [if_pos hr]
      subst hr
      exact ⟨by simp, by simp, by simp, by simp, ⟨[], by simp, rfl, trivial, by simp⟩⟩
    · simp only [silenceLoopAux]
      rw [if_neg hr]
      obtain ⟨p1, p2, p3, p4, new, hfr, hcat, hchn, hbnd⟩ := ih (rem - min 1024 rem)
        { st with frames := st.frames ++ [⟨st.pts, List.replicate (min 1024 rem) 0⟩],
                  pts := st.pts + min 1024 rem }
        (by omega)
      refine ⟨p1, p2, p3, ?_,
        ⟨⟨st.pts, List.replicate (min 1024 rem) 0⟩ :: new, ?_, ?_, ?_, ?_⟩⟩
      · rw [p4]
        dsimp only
        omega
      · rw [hfr]
        simp
      · simp only [catFrames, hcat]
        rw [← List.replicate_add]
        congr 1
        omega
      · refine ⟨rfl, ?_⟩
        simp only [List.length_replicate]
        exact hchn
      · intro f hf
        rcases List.mem_cons.mp hf with rfl | hf
        · simp only [List.length_replicate]
          omega
        · exact hbnd f hf

theorem padSilence_spec (env : PipeEnv) (st : RunState) :
    flatOut (padSilence env st) = flatOut st ++ List.replicate (env.minS - st.total) 0 := by
  unfold padSilence
  by_cases h : st.total < env.minS
  · rw [if_pos h]
    obtain ⟨_, _, _, _, new, hfr, hcat, _, _⟩ :=
      silenceLoopAux_spec env (env.minS - st.total) (env.minS - st.total) st (Nat.le_refl _)
    rw [flatOut_fields, hfr, catFrames_append, hcat]
    rfl
  · rw [if_neg h]
    have h0 : env.minS - st.total = 0 := by omega
    rw [h0]
    simp

/-! ## Theorems: invariant chains through the whole pipeline -/

theorem decodeStep_sane (env : PipeEnv) (f : DecFrame) (st : RunState)
    (hs : Sane st) : Sane (decodeStep env f st) := by
  simp only [decodeStep]
  exact writeStage_sane env _ _ st hs

theorem frameLoop_sane (env : PipeEnv) (fs : List DecFrame) :
    ∀ st : RunState, Sane st → Sane (frameLoop env fs st) := by
  induction fs with
  | nil => intro st hs; exact hs
  | cons f fs ih =>
    intro st hs
    by_cases hg : env.maxS ≤ st.total
    · rw [frameLoop_saturated env _ st hg]
      exact hs
    · have hstep : frameLoop env (f :: fs) st = frameLoop env fs (decodeStep env f st) := by
        show (if env.maxS ≤ st.total then st else frameLoop env fs (decodeStep env f st)) = _
        rw [if_neg hg]
      rw [hstep]
      exact ih _ (decodeStep_sane env f st hs)

theorem packetLoop_sane (env : PipeEnv) (ps : List Packet) :
    ∀ st : RunState, Sane st → Sane (packetLoop env ps st) := by
  induction ps with
  | nil => intro st hs; exact hs
  | cons p ps ih =>
    intro st hs
    cases p with
    | other => exact ih st hs
    | bad => exact ih st hs
    | good fs =>
      by_cases hg : env.maxS ≤ (frameLoop env fs st).total
      · have h1 : packetLoop env (Packet.good fs :: ps) st = frameLoop env fs st := by
          show (if env.maxS ≤ (frameLoop env fs st).total then frameLoop env fs st
            else packetLoop env ps (frameLoop env fs st)) = frameLoop env fs st
          rw [if_pos hg]
        rw [h1]
        exact frameLoop_sane env fs st hs
      · have h1 : packetLoop env (Packet.good fs :: ps) st =
            packetLoop env ps (frameLoop env fs st) := by
          show (if env.maxS ≤ (frameLoop env fs st).total then frameLoop env fs st
            else packetLoop env ps (frameLoop env fs st)) = packetLoop env ps (frameLoop env fs st)
          rw [if_neg hg]
        rw [h1]
        exact ih _ (frameLoop_sane env fs st hs)

theorem flushLoopAux_sane (env : PipeEnv) (fuel : Nat) :
    ∀ st : RunState, Sane st → Sane (flushLoopAux env fuel st) := by
  induction fuel with
  | zero => intro st hs; exact hs
  | succ fuel ih =>
    intro st hs
    by_cases hg : env.maxS ≤ st.total
    · rw [flushLoopAux_saturated env _ st hg]
      exact hs
    · simp only [flushLoopAux]
      rw [if_neg hg]
      by_cases hemp : (st.pending.take (8192 / env.channels)).length = 0
      · rw [if_pos hemp]
        exact writeStage_sane env _ _ st hs
      · rw [if_neg hemp]
        exact ih _ (writeStage_sane env _ _ st hs)

theorem padSilence_sane (env : PipeEnv) (st : RunState) (hs : Sane st) :
    Sane (padSilence env st) := by
  obtain ⟨hchain, hpts, hbnd⟩ := hs
  unfold padSilence
  by_cases h : st.total < env.minS
  · rw [if_pos h]
    obtain ⟨_, _, _, p4, new, hfr, hcat, hchn, hbnd2⟩ :=
      silenceLoopAux_spec env (env.minS - st.total) (env.minS - st.total) st (Nat.le_refl _)
    refine ⟨?_, ?_, ?_⟩
    · rw [hfr]
      apply chainedFrom_append hchain
      rw [Nat.zero_add, ← flatOut_fields, ← hpts]
      exact hchn
    · rw [p4, flatOut_fields, hfr, catFrames_append, hcat, List.length_append,
        List.length_replicate, hpts, flatOut_fields]
    · intro f hf
      rw [hfr] at hf
      rcases List.mem_append.mp hf with hh | hh
      · exact hbnd f hh
      · exact hbnd2 f hh
  · rw [if_neg h]
    exact ⟨hchain, hpts, hbnd⟩

theorem runPipeline_sane (env : PipeEnv) (pkts : List Packet) (T : List Rat) :
    Sane (runPipeline env pkts T) := by
  have h0 : Sane initState := ⟨trivial, rfl, by simp [initState]⟩
  have h1 : Sane (pipeStage1 env pkts) := packetLoop_sane env pkts initState h0
  have h1b : Sane { pipeStage1 env pkts with
      pending := (pipeStage1 env pkts).pending ++ T } := by
    obtain ⟨a, b, c⟩ := h1
    exact ⟨a, b, c⟩
  have h2 : Sane (pipeStage2 env pkts T) := by
    unfold pipeStage2 flushLoop
    exact flushLoopAux_sane env _ _ h1b
  unfold runPipeline
  exact padSilence_sane env _ h2

theorem decodeStep_writes (env : PipeEnv) (f : DecFrame) (st : RunState)
    (hch : 0 < env.channels) (hw : ∀ x ∈ st.writes, x ≤ 8192) :
    ∀ x ∈ (decodeStep env f st).writes, x ≤ 8192 := by
  simp only [decodeStep]
  apply writeStage_writes env _ _ st hch _ hw
  rw [List.length_take]
  omega

theorem frameLoop_writes (env : PipeEnv) (fs : List DecFrame) (hch : 0 < env.channels) :
    ∀ st : RunState, (∀ x ∈ st.writes, x ≤ 8192) →
      ∀ x ∈ (frameLoop env fs st).writes, x ≤ 8192 := by
  induction fs with
  | nil => intro st hw; exact hw
  | cons f fs ih =>
    intro st hw
    by_cases hg : env.maxS ≤ st.total
    · rw [frameLoop_saturated env _ st hg]
      exact hw
    · have hstep : frameLoop env (f :: fs) st = frameLoop env fs (decodeStep env f st) := by
        show (if env.maxS ≤ st.total then st else frameLoop env fs (decodeStep env f st)) = _
        rw [if_neg hg]
      rw [hstep]
      exact ih _ (decodeStep_writes env f st hch hw)

theorem packetLoop_writes (env : PipeEnv) (ps : List Packet) (hch : 0 < env.channels) :
    ∀ st : RunState, (∀ x ∈ st.writes, x ≤ 8192) →
      ∀ x ∈ (packetLoop env ps st).writes, x ≤ 8192 := by
  induction ps with
  | nil => intro st hw; exact hw
  | cons p ps ih =>
    intro st hw
    cases p with
    | other => exact ih st hw
    | bad => exact ih st hw
    | good fs =>
      by_cases hg : env.maxS ≤ (frameLoop env fs st).total
      · have h1 : packetLoop env (Packet.good fs :: ps) st = frameLoop env fs st := by
          show (if env.maxS ≤ (frameLoop env fs st).total then frameLoop env fs st
            else packetLoop env ps (frameLoop env fs st)) = frameLoop env fs st
          rw [if_pos hg]
        rw [h1]
        exact frameLoop_writes env fs hch st hw
      · have h1 : packetLoop env (Packet.good fs :: ps) st =
            packetLoop env ps (frameLoop env fs st) := by
          show (if env.maxS ≤ (frameLoop env fs st).total then frameLoop env fs st
            else packetLoop env ps (frameLoop env fs st)) = packetLoop env ps (frameLoop env fs st)
          rw [if_neg hg]
        rw [h1]
        exact ih _ (frameLoop_writes env fs hch st hw)

theorem flushLoopAux_writes (env : PipeEnv) (fuel : Nat) (hch : 0 < env.channels) :
    ∀ st : RunState, (∀ x ∈ st.writes, x ≤ 8192) →
      ∀ x ∈ (flushLoopAux env fuel st).writes, x ≤ 8192 := by
  induction fuel with
  | zero => intro st hw; exact hw
  | succ fuel ih =>
    intro st hw
    by_cases hg : env.maxS ≤ st.total
    · rw [flushLoopAux_saturated env _ st hg]
      exact hw
    · simp only [flushLoopAux]
      rw [if_neg hg]
      have hemitlen : (st.pending.take (8192 / env.channels)).length ≤ 8192 / env.channels := by
        rw [List.length_take]
        omega
      by_cases hemp : (st.pending.take (8192 / env.channels)).length = 0
      · rw [if_pos hemp]
        exact writeStage_writes env _ _ st hch hemitlen hw
      · rw [if_neg hemp]
        exact ih _ (writeStage_writes env _ _ st hch hemitlen hw)

theorem padSilence_writes (env : PipeEnv) (st : RunState)
    (hw : ∀ x ∈ st.writes, x ≤ 8192) :
    ∀ x ∈ (padSilence env st).writes, x ≤ 8192 := by
  unfold padSilence
  by_cases h : st.total < env.minS
  · rw [if_pos h]
    obtain ⟨_, _, p3, _⟩ :=
      silenceLoopAux_spec env (env.minS - st.total) (env.minS - st.total) st (Nat.le_refl _)
    intro x hx
    rw [p3] at hx
    exact hw x hx
  · rw [if_neg h]
    exact hw

theorem runPipeline_writes (env : PipeEnv) (pkts : List Packet) (T : List Rat)
    (hch : 0 < env.channels) :
    ∀ x ∈ (runPipeline env pkts T).writes, x ≤ 8192 := by
  have h1 : ∀ x ∈ (pipeStage1 env pkts).writes, x ≤ 8192 :=
    packetLoop_writes env pkts hch initState (by simp [initState])
  have h2 : ∀ x ∈ (pipeStage2 env pkts T).writes, x ≤ 8192 := by
    unfold pipeStage2 flushLoop
    exact flushLoopAux_writes env _ hch _ h1
  unfold runPipeline
  exact padSilence_writes env _ h2

/-! ## Theorems: end-to-end content of the two duration-shaping stages -/

theorem pipeStage2_inv (env : PipeEnv) (pkts : List Packet) (T : List Rat) :
    (pipeStage2 env pkts T).total = (flatOut (pipeStage2 env pkts T)).length ∧
    (pipeStage2 env pkts T).total ≤ env.maxS := by
  obtain ⟨p1, p2, _⟩ := packetLoop_spec env pkts initState rfl (Nat.zero_le _)
  unfold pipeStage2 flushLoop
  exact flushLoopAux_inv env _ _ p1 p2

theorem pipeStage2_spec (env : PipeEnv) (pkts : List Packet) (T : List Rat)
    (hmo : 0 < 8192 / env.channels) :
    (pipeStage2 env pkts T).total = (flatOut (pipeStage2 env pkts T)).length ∧
    (pipeStage2 env pkts T).total = min env.maxS (resampledStream pkts T).length ∧
    flatOut (pipeStage2 env pkts T) =
      (resampledStream pkts T).take (min env.maxS (resampledStream pkts T).length) := by
  obtain ⟨p1, p2, p3⟩ := packetLoop_spec env pkts initState rfl (Nat.zero_le _)
  have hinit : flatOut initState ++ initState.pending ++ packetsContrib pkts
      = packetsContrib pkts := by
    simp [initState, flatOut_fields, catFrames]
  rw [hinit] at p3
  set s1 := packetLoop env pkts initState with hs1def
  set s1b : RunState := { s1 with pending := s1.pending ++ T } with hs1bdef
  have hs1btot : s1b.total = (flatOut s1b).length := p1
  have hs1ble : s1b.total ≤ env.maxS := p2
  have hstage : pipeStage2 env pkts T = flushLoopAux env (s1b.pending.length + 1) s1b := rfl
  obtain ⟨f1, f2⟩ := flushLoopAux_spec env hmo (s1b.pending.length + 1) s1b
    (Nat.le_succ _) hs1btot hs1ble
  rw [← hstage] at f1 f2
  refine ⟨f1, ?_⟩
  rcases p3 with ⟨pa, pb⟩ | ⟨pa, junk1, pb⟩
  · have hR : flatOut s1b ++ s1b.pending = resampledStream pkts T := by
      show flatOut s1 ++ (s1.pending ++ T) = packetsContrib pkts ++ T
      rw [← List.append_assoc, pb]
    rcases f2 with ⟨fa, fb⟩ | ⟨fa, junk2, fb⟩
    · have hflat : flatOut (pipeStage2 env pkts T) = resampledStream pkts T := by
        rw [fb, hR]
      have hlen : (pipeStage2 env pkts T).total = (resampledStream pkts T).length := by
        rw [f1, hflat]
      have hmin : min env.maxS (resampledStream pkts T).length
          = (resampledStream pkts T).length := by omega
      constructor
      · rw [hlen, hmin]
      · rw [hflat, hmin, List.take_length]
    · rw [hR] at fb
      have hlenflat : (flatOut (pipeStage2 env pkts T)).length = env.maxS := by
        rw [← f1, fa]
      have hRlen : env.maxS ≤ (resampledStream pkts T).length := by
        have hc := congrArg List.length fb
        rw [List.length_append] at hc
        omega
      have hmin : min env.maxS (resampledStream pkts T).length = env.maxS := by omega
      constructor
      · rw [fa, hmin]
      · rw [hmin, ← fb, List.take_left' hlenflat]
  · have hs1btotmax : env.maxS ≤ s1b.total := le_of_eq pa.symm
    have hnoflush : pipeStage2 env pkts T = s1b := by
      rw [hstage]
      exact flushLoopAux_saturated env _ s1b hs1btotmax
    have hRjunk : flatOut (pipeStage2 env pkts T) ++ (junk1 ++ T) = resampledStream pkts T := by
      rw [hnoflush]
      show flatOut s1 ++ (junk1 ++ T) = packetsContrib pkts ++ T
      rw [← List.append_assoc, pb]
    have hlenflat : (flatOut (pipeStage2 env pkts T)).length = env.maxS := by
      rw [hnoflush]
      show (flatOut s1).length = env.maxS
      rw [← p1]
      exact pa
    have hRlen : env.maxS ≤ (resampledStream pkts T).length := by
      have hc := congrArg List.length hRjunk
      rw [List.length_append] at hc
      omega
    have hmin : min env.maxS (resampledStream pkts T).length = env.maxS := by omega
    constructor
    · rw [hnoflush, hmin]
      exact pa
    · rw [hmin, ← hRjunk, List.take_left' hlenflat]

theorem runPipeline_filter (env : PipeEnv) (pkts : List Packet) (T : List Rat) :
    runPipeline env pkts T = runPipeline env (pkts.filter isGood) T := by
  unfold runPipeline pipeStage2 pipeStage1
  rw [packetLoop_filter env pkts initState]

/-! ## Claim theorems for the pipeline -/

/-- C1: for every successful pipeline run under a config with
min_duration_sec ≤ max_duration_sec, the total output sample count lies in
[min_samples, max_samples], where both bounds are computed by the truncating
(floor) conversion `durationToSamples` of the duration-rate product. -/
theorem c1_duration_bounds (cfg : ProcessorConfig) (inRate channels : Nat)
    (pkts : List Packet) (T : List Rat)
    (h : cfg.min_duration_sec ≤ cfg.max_duration_sec) :
    durationToSamples cfg.min_duration_sec cfg.target_sample_rate ≤
        outputSampleCount (runPipeline (mkEnv cfg inRate channels) pkts T) ∧
      outputSampleCount (runPipeline (mkEnv cfg inRate channels) pkts T) ≤
        durationToSamples cfg.max_duration_sec cfg.target_sample_rate := by
  have hms : durationToSamples cfg.min_duration_sec cfg.target_sample_rate ≤
      durationToSamples cfg.max_duration_sec cfg.target_sample_rate := by
    unfold durationToSamples
    apply Nat.floor_mono
    apply mul_le_mul_of_nonneg_right h
    exact Nat.cast_nonneg _
  obtain ⟨h2tot, h2le⟩ := pipeStage2_inv (mkEnv cfg inRate channels) pkts T
  have hflat := padSilence_spec (mkEnv cfg inRate channels) (pipeStage2 (mkEnv cfg inRate channels) pkts T)
  have hminSeq : (mkEnv cfg inRate channels).minS
      = durationToSamples cfg.min_duration_sec cfg.target_sample_rate := rfl
  have hmaxSeq : (mkEnv cfg inRate channels).maxS
      = durationToSamples cfg.max_duration_sec cfg.target_sample_rate := rfl
  unfold outputSampleCount runPipeline
  rw [hflat, List.length_append, List.length_replicate, ← h2tot, hminSeq]
  rw [hmaxSeq] at h2le
  constructor <;> omega

theorem c1_duration_bounds_witness :
    ((1 : Rat) ≤ 2) ∧
      (durationToSamples (1 : Rat) 4 ≤
          outputSampleCount (runPipeline (mkEnv ⟨4, 1, 2⟩ 2 1)
            [Packet.good [⟨2, [1, 0, 1]⟩]] [0]) ∧
        outputSampleCount (runPipeline (mkEnv ⟨4, 1, 2⟩ 2 1)
            [Packet.good [⟨2, [1, 0, 1]⟩]] [0]) ≤
          durationToSamples (2 : Rat) 4) :=
  ⟨by decide,
    c1_duration_bounds ⟨4, 1, 2⟩ 2 1 [Packet.good [⟨2, [1, 0, 1]⟩]] [0] (by decide)⟩

/-- C2: when the resampled stream is longer than max_samples, the successful
output holds exactly max_samples samples and they are exactly the first
max_samples samples of the resampled stream; moreover once the running count
has reached max_samples during the packet loop, appending further input
packets leaves the whole run unchanged (no further decoding or resampling). -/
theorem c2_truncation_exact (env : PipeEnv) (pkts : List Packet) (T : List Rat)
    (hch : 0 < env.channels) (hch2 : env.channels ≤ 8192)
    (hms : env.minS ≤ env.maxS)
    (hlong : env.maxS < (resampledStream pkts T).length) :
    flatOut (runPipeline env pkts T) = (resampledStream pkts T).take env.maxS ∧
    outputSampleCount (runPipeline env pkts T) = env.maxS ∧
    (∀ extra : List Packet, env.maxS ≤ (pipeStage1 env pkts).total →
      runPipeline env (pkts ++ extra) T = runPipeline env pkts T) := by
  have hmo : 0 < 8192 / env.channels := (Nat.le_div_iff_mul_le hch).mpr (by omega)
  obtain ⟨s1, s2, s3⟩ := pipeStage2_spec env pkts T hmo
  have hmin : min env.maxS (resampledStream pkts T).length = env.maxS := by omega
  rw [hmin] at s2 s3
  have hpad : runPipeline env pkts T = pipeStage2 env pkts T := by
    unfold runPipeline padSilence
    rw [if_neg (by omega)]
  refine ⟨?_, ?_, ?_⟩
  · rw [hpad, s3]
  · rw [hpad, outputSampleCount, ← s1, s2]
  · intro extra hsat
    unfold pipeStage1 at hsat
    unfold runPipeline pipeStage2 pipeStage1
    rw [packetLoop_append env pkts extra initState,
      packetLoop_saturated env extra _ hsat]

theorem c2_truncation_exact_witness :
    (0 < (1 : Nat) ∧ (1 : Nat) ≤ 8192 ∧ (1 : Nat) ≤ 3 ∧
        (3 : Nat) < (resampledStream [Packet.good [⟨4, [1, 2, 3, 4]⟩]] []).length) ∧
      (flatOut (runPipeline ⟨4, 4, 1, 1, 3⟩ [Packet.good [⟨4, [1, 2, 3, 4]⟩]] []) =
          (resampledStream [Packet.good [⟨4, [1, 2, 3, 4]⟩]] []).take 3 ∧
        outputSampleCount (runPipeline ⟨4, 4, 1, 1, 3⟩ [Packet.good [⟨4, [1, 2, 3, 4]⟩]] []) = 3 ∧
        ∀ extra : List Packet,
          3 ≤ (pipeStage1 ⟨4, 4, 1, 1, 3⟩ [Packet.good [⟨4, [1, 2, 3, 4]⟩]]).total →
            runPipeline ⟨4, 4, 1, 1, 3⟩ ([Packet.good [⟨4, [1, 2, 3, 4]⟩]] ++ extra) [] =
              runPipeline ⟨4, 4, 1, 1, 3⟩ [Packet.good [⟨4, [1, 2, 3, 4]⟩]] []) :=
  ⟨⟨by decide, by decide, by decide, by decide⟩,
    c2_truncation_exact ⟨4, 4, 1, 1, 3⟩ [Packet.good [⟨4, [1, 2, 3, 4]⟩]] []
      (by decide) (by decide) (by decide) (by decide)⟩

/-- C3: when the resampled stream (including the resampler flush) is shorter
than min_samples, the successful output holds exactly min_samples samples,
every sample after the resampled content is zero, and the padding is appended
in encoder frames of at most 1024 samples. -/
theorem c3_padding_exact (env : PipeEnv) (pkts : List Packet) (T : List Rat)
    (hch : 0 < env.channels) (hch2 : env.channels ≤ 8192)
    (hms : env.minS ≤ env.maxS)
    (hshort : (resampledStream pkts T).length < env.minS) :
    outputSampleCount (runPipeline env pkts T) = env.minS ∧
    flatOut (runPipeline env pkts T) =
      resampledStream pkts T ++
        List.replicate (env.minS - (resampledStream pkts T).length) 0 ∧
    (flatOut (runPipeline env pkts T)).drop (resampledStream pkts T).length =
      List.replicate (env.minS - (resampledStream pkts T).length) 0 ∧
    ∀ f ∈ (runPipeline env pkts T).frames, f.samples.length ≤ 1024 := by
  have hmo : 0 < 8192 / env.channels := (Nat.le_div_iff_mul_le hch).mpr (by omega)
  obtain ⟨s1, s2, s3⟩ := pipeStage2_spec env pkts T hmo
  have hmin : min env.maxS (resampledStream pkts T).length
      = (resampledStream pkts T).length := by omega
  rw [hmin] at s2 s3
  rw [List.take_length] at s3
  have hflat : flatOut (runPipeline env pkts T) =
      resampledStream pkts T ++
        List.replicate (env.minS - (resampledStream pkts T).length) 0 := by
    unfold runPipeline
    rw [padSilence_spec, s3, s2]
  refine ⟨?_, hflat, ?_, ?_⟩
  · rw [outputSampleCount, hflat, List.length_append, List.length_replicate]
    omega
  · rw [hflat]
    exact List.drop_left _ _
  · obtain ⟨_, _, hbnd⟩ := runPipeline_sane env pkts T
    intro f hf
    exact (hbnd f hf).2

theorem c3_padding_exact_witness :
    (0 < (1 : Nat) ∧ (1 : Nat) ≤ 8192 ∧ (3 : Nat) ≤ 3 ∧
        (resampledStream [Packet.good [⟨2, [5, 7]⟩]] []).length < 3) ∧
      (outputSampleCount (runPipeline ⟨4, 4, 1, 3, 3⟩ [Packet.good [⟨2, [5, 7]⟩]] []) = 3 ∧
        flatOut (runPipeline ⟨4, 4, 1, 3, 3⟩ [Packet.good [⟨2, [5, 7]⟩]] []) =
          resampledStream [Packet.good [⟨2, [5, 7]⟩]] [] ++
            List.replicate (3 - (resampledStream [Packet.good [⟨2, [5, 7]⟩]] []).length) 0 ∧
        (flatOut (runPipeline ⟨4, 4, 1, 3, 3⟩ [Packet.good [⟨2, [5, 7]⟩]] [])).drop
            (resampledStream [Packet.good [⟨2, [5, 7]⟩]] []).length =
          List.replicate (3 - (resampledStream [Packet.good [⟨2, [5, 7]⟩]] []).length) 0 ∧
        ∀ f ∈ (runPipeline ⟨4, 4, 1, 3, 3⟩ [Packet.good [⟨2, [5, 7]⟩]] []).frames,
          f.samples.length ≤ 1024) :=
  ⟨⟨by decide, by decide, by decide, by decide⟩,
    c3_padding_exact ⟨4, 4, 1, 3, 3⟩ [Packet.good [⟨2, [5, 7]⟩]] []
      (by decide) (by decide) (by decide) (by decide)⟩

/-- C6: in every swr_convert call of the decode loop and of the flush loop the
requested output count is clamped to the scratch capacity 8192 divided by the
channel count, so no call writes more than 8192 floats into the scratch
buffer, and every frame handed to the encoder holds at most 1024 samples. -/
theorem c6_scratch_clamp (env : PipeEnv) (pkts : List Packet) (T : List Rat)
    (hch : 0 < env.channels) :
    (∀ w ∈ (runPipeline env pkts T).writes, w ≤ 8192) ∧
    (∀ f ∈ (runPipeline env pkts T).frames, f.samples.length ≤ 1024) := by
  refine ⟨runPipeline_writes env pkts T hch, ?_⟩
  obtain ⟨_, _, hbnd⟩ := runPipeline_sane env pkts T
  intro f hf
  exact (hbnd f hf).2

theorem c6_scratch_clamp_witness :
    (0 < (2 : Nat)) ∧
      ((∀ w ∈ (runPipeline ⟨4, 4, 2, 1, 3⟩ [Packet.good [⟨2, [1, 2]⟩]] [0]).writes, w ≤ 8192) ∧
        (∀ f ∈ (runPipeline ⟨4, 4, 2, 1, 3⟩ [Packet.good [⟨2, [1, 2]⟩]] [0]).frames,
          f.samples.length ≤ 1024)) :=
  ⟨by decide, c6_scratch_clamp ⟨4, 4, 2, 1, 3⟩ [Packet.good [⟨2, [1, 2]⟩]] [0] (by decide)⟩

/-- C9: the presentation timestamps of the emitted encoder frames start at 0,
each frame timestamp equals the previous timestamp plus the previous frame's
sample count, every frame is nonempty, and hence timestamps are strictly
monotonically increasing across the decode loop, the resampler flush, and the
silence padding. -/
theorem c9_pts_monotone (env : PipeEnv) (pkts : List Packet) (T : List Rat) :
    chainedFrom 0 (runPipeline env pkts T).frames ∧
    (∀ f ∈ (runPipeline env pkts T).frames, 1 ≤ f.samples.length) ∧
    (runPipeline env pkts T).frames.Pairwise (fun a b => a.pts < b.pts) := by
  obtain ⟨hchain, _, hbnd⟩ := runPipeline_sane env pkts T
  exact ⟨hchain, fun f hf => (hbnd f hf).1,
    chained_pairwise hchain (fun f hf => (hbnd f hf).1)⟩

/-- C10: when opening, probing, decoder and encoder setup, header write,
resampler init, and buffer allocation all succeed, packets whose decode fails
(and packets of other streams) are skipped without aborting: the run returns 0
and the result equals the run over the good packets alone. -/
theorem c10_decode_failures_tolerated (cfg : ProcessorConfig) (su : SetupOutcome)
    (pkts : List Packet) (T : List Rat) (h : setupAllOk su = true) :
    (process_file cfg su pkts T).1 = 0 ∧
      (process_file cfg su pkts T).2 = some (runPipeline
        (mkEnv cfg su.inSampleRate (if su.inChannels = 0 then 2 else su.inChannels))
        (pkts.filter isGood) T) := by
  simp only [setupAllOk, Bool.and_eq_true] at h
  obtain ⟨⟨⟨⟨⟨⟨h1, h2⟩, h3⟩, h4⟩, h5⟩, h6⟩, h7⟩ := h
  simp only [process_file]
  rw [if_neg (by simp [h1]), if_neg (by simp [h2]), if_neg (by simp [h3]),
    if_neg (by simp [h4]), if_neg (by simp [h5]), if_neg (by simp [h6]),
    if_neg (by simp [h7])]
  refine ⟨rfl, ?_⟩
  rw [runPipeline_filter]

theorem c10_decode_failures_tolerated_witness :
    (setupAllOk ⟨true, true, true, true, true, true, true, 4, 1⟩ = true) ∧
      ((process_file ⟨4, 1, 2⟩ ⟨true, true, true, true, true, true, true, 4, 1⟩
          [Packet.bad, Packet.other, Packet.good [⟨1, [1]⟩]] []).1 = 0 ∧
        (process_file ⟨4, 1, 2⟩ ⟨true, true, true, true, true, true, true, 4, 1⟩
            [Packet.bad, Packet.other, Packet.good [⟨1, [1]⟩]] []).2 =
          some (runPipeline (mkEnv ⟨4, 1, 2⟩ 4 (if (1 : Nat) = 0 then 2 else 1))
            ([Packet.bad, Packet.other, Packet.good [⟨1, [1]⟩]].filter isGood) [])) :=
  ⟨by decide,
    c10_decode_failures_tolerated ⟨4, 1, 2⟩ ⟨true, true, true, true, true, true, true, 4, 1⟩
      [Packet.bad, Packet.other, Packet.good [⟨1, [1]⟩]] [] (by decide)⟩
